import Mathlib

/-!
Verification development for the go-in-action feed-aggregation core.

The development shallowly embeds the two article stores
(`chapter11/go-news/api/internal/worker` store section and
`chapter11/api/internal/store/store.go`), the worker pool and its job
channel, the scatter/gather collector of `SyncHandler`, and the
background dispatch loop of `App.run`, and proves the specification
claims about them.

Machine conventions: Go `time.Time` publication instants are modelled as
`Int`; `*time.Time` as `Option Int`; Go errors as `Option String`
(`none` = nil).  Panics of partial Go operations are modelled with
`Option`/explicit outcome constructors.
-/

set_option linter.unusedVariables false
set_option linter.unnecessarySeqFocus false

/-- An article as both stores see it: `link` is the identity used for
deduplication, `published` the optional ordering key, `title` stands in
for the remaining display-only payload. -/
structure Article where
  title : String
  link : String
  published : Option Int
deriving DecidableEq

/-- Sort callback of the worker-package store (`AddArticle`/`AddArticles`
in the go-news store): `if a.Published == nil || b.Published == nil
{ return 0 }; return b.Published.Compare(*a.Published)`.  Any pair with a
missing date compares equal. -/
def wcmp (a b : Article) : Int :=
  match a.published, b.published with
  | some x, some y => if y < x then -1 else if x < y then 1 else 0
  | _, _ => 0

/-- Sort callback of the chapter11/api store (`AddArticles` in
store.go): nil dates go to the end, otherwise newest first
(`a.After(b)` gives -1, `a.Before(b)` gives 1). -/
def acmp (a b : Article) : Int :=
  match a.published, b.published with
  | none, none => 0
  | none, some _ => 1
  | some _, none => -1
  | some x, some y => if y < x then -1 else if x < y then 1 else 0

/-- One sinking step of the sort, phrased on the reversed list: the
element `a`, arriving from the right, moves left past a neighbour `b`
exactly while `c a b < 0`. -/
def insRev (c : Article → Article → Int) (a : Article) : List Article → List Article
  | [] => [a]
  | b :: bs => if c a b < 0 then b :: insRev c a bs else a :: b :: bs

/-- Insert `a` at the right end of `l` and let it sink leftwards. -/
def insertSorted (c : Article → Article → Int) (l : List Article) (a : Article) : List Article :=
  (insRev c a l.reverse).reverse

/-- Deterministic model of `slices.SortFunc` with comparator `c`:
elements are settled left to right, each sinking in from the right end
of the settled prefix — the insertion sort `slices.SortFunc` itself runs
on short slices. -/
def sortFunc (c : Article → Article → Int) (l : List Article) : List Article :=
  l.foldl (insertSorted c) []

/-- go-news worker-package `ArticleStore`: the `map[string]any` link
cache (modelled as the list of its keys) plus the sorted backing
slice. -/
structure WArticleStore where
  cache : List String
  sorted : List Article
deriving DecidableEq

/-- `NewArticleStore` of the worker-package store. -/
def newWArticleStore : WArticleStore :=
  { cache := [], sorted := [] }

/-- Worker-package `AddArticle`: return early when the link is cached,
otherwise record the link, append the article and re-sort. -/
def WArticleStore.AddArticle (s : WArticleStore) (a : Article) : WArticleStore :=
  if a.link ∈ s.cache then s
  else { cache := a.link :: s.cache, sorted := sortFunc wcmp (s.sorted ++ [a]) }

/-- Accumulator of the worker-package `AddArticles` loop: the evolving
cache and slice plus the `dirty` flag. -/
structure AddAcc where
  cache : List String
  sorted : List Article
  dirty : Bool
deriving DecidableEq

/-- One iteration of the worker-package `AddArticles` loop body. -/
def addStep (acc : AddAcc) (a : Article) : AddAcc :=
  if a.link ∈ acc.cache then acc
  else { cache := a.link :: acc.cache, sorted := acc.sorted ++ [a], dirty := true }

/-- Worker-package `AddArticles`: run the dedup loop over the whole
batch and sort once at the end iff anything new was appended. -/
def WArticleStore.AddArticles (s : WArticleStore) (l : List Article) : WArticleStore :=
  let acc := l.foldl addStep { cache := s.cache, sorted := s.sorted, dirty := false }
  if acc.dirty then { cache := acc.cache, sorted := sortFunc wcmp acc.sorted }
  else { cache := acc.cache, sorted := acc.sorted }

/-- Worker-package `GetRecent`: `if n > len(s.sorted) { return s.sorted };
return s.sorted[:n]` — the slice expression panics for negative `n`
(modelled as `none`).  Both returns alias the live backing slice; the
value-level list is captured here, aliasing in the slice-level model
below. -/
def WArticleStore.GetRecent (s : WArticleStore) (n : Int) : Option (List Article) :=
  if (s.sorted.length : Int) < n then some s.sorted
  else if n < 0 then none
  else some (s.sorted.take n.toNat)

/-- chapter11/api `ArticleStore`: just the backing slice, no identity
cache. -/
structure AArticleStore where
  articles : List Article
deriving DecidableEq

/-- `NewArticleStore` of the chapter11/api store. -/
def newAArticleStore : AArticleStore :=
  { articles := [] }

/-- chapter11/api `AddArticles`: append the whole batch — no
deduplication — then sort.  The Go method also returns a constantly nil
error, omitted here. -/
def AArticleStore.AddArticles (s : AArticleStore) (l : List Article) : AArticleStore :=
  { articles := sortFunc acmp (s.articles ++ l) }

/-- chapter11/api `GetRecent`: empty result for `n ≤ 0`, clamp `n` to
the stored count, and copy the first `n` articles. -/
def AArticleStore.GetRecent (s : AArticleStore) (n : Int) : List Article :=
  if n ≤ 0 then []
  else
    let m := if (s.articles.length : Int) < n then s.articles.length else n.toNat
    s.articles.take m

/-- The subsequence of `l` that the worker-package `AddArticles` loop
actually appends: first occurrences of links absent from the cache. -/
def newArticles (cache : List String) : List Article → List Article
  | [] => []
  | a :: as =>
      if a.link ∈ cache then newArticles cache as
      else a :: newArticles (a.link :: cache) as

/-- A buffered Go channel of strings (job queue, feed channel, error
channel — error values are carried as their message strings). -/
structure GoChan where
  cap : Nat
  buf : List String
  closed : Bool
deriving DecidableEq

/-- Outcome of a Go channel send, per the language specification: a send
on a closed channel panics; otherwise it completes exactly when buffer
space remains and blocks while the buffer is full. -/
inductive SendResult where
  | panicked
  | sent (c : GoChan)
  | blocked
deriving DecidableEq

def GoChan.send (c : GoChan) (a : String) : SendResult :=
  if c.closed then .panicked
  else if c.buf.length < c.cap then .sent { c with buf := c.buf ++ [a] }
  else .blocked

/-- Outcome of a Go channel receive: a buffered value if any, the zero
value immediately once the channel is closed and drained, otherwise the
receive would block. -/
inductive RecvResult where
  | got (a : String) (c : GoChan)
  | zeroVal (c : GoChan)
  | wouldBlock
deriving DecidableEq

def GoChan.recv (c : GoChan) : RecvResult :=
  match c.buf with
  | a :: rest => .got a { c with buf := rest }
  | [] => if c.closed then .zeroVal c else .wouldBlock

/-- A channel is ready for a select case when a receive completes
without blocking. -/
def GoChan.ready (c : GoChan) : Bool :=
  !c.buf.isEmpty || c.closed

/-- worker.WorkerPool: the worker list is summarised by its length; the
shared job queue is the `incomingFeeds` channel.  Worker goroutines
drain the queue concurrently; their consumption is an external event
relative to this state. -/
structure WorkerPool where
  workerCount : Nat
  incomingFeeds : GoChan
deriving DecidableEq

/-- worker.NewWorkerPool: `make(chan string, 100)` regardless of
`count`; the processor argument only parameterises the workers and never
influences the queue, so it is not part of the state. -/
def NewWorkerPool (count : Nat) : WorkerPool :=
  { workerCount := count
  , incomingFeeds := { cap := 100, buf := [], closed := false } }

/-- worker.Submit: `wp.incomingFeeds <- url`. -/
def WorkerPool.Submit (wp : WorkerPool) (url : String) : SendResult :=
  wp.incomingFeeds.send url

/-- worker.Stop: `close(wp.incomingFeeds)`. -/
def WorkerPool.Stop (wp : WorkerPool) : WorkerPool :=
  { wp with incomingFeeds := { wp.incomingFeeds with closed := true } }

/-- Send a sequence of values on a channel, failing (`none`) as soon as
one send does not complete; used to express that a run of Submit calls
completes without blocking while no worker consumes. -/
def sendSeq (c : GoChan) : List String → Option GoChan
  | [] => some c
  | u :: us =>
      match c.send u with
      | .sent c2 => sendSeq c2 us
      | _ => none

/-- Channel-visible state of the App dispatch loop: the feed-submission
channel, the error channel and the worker pool's job channel. -/
structure DispatchState where
  feedRead : GoChan
  errChan : GoChan
  pool : GoChan
deriving DecidableEq

/-- Result of one iteration of App.run's `for { select ... } }`: the
loop continues in a new state, panics inside `Submit`, or blocks inside
`Submit`.  There is no stopped alternative because the loop body
contains no return or break. -/
inductive StepRes where
  | run (s : DispatchState)
  | panicked
  | blockedSubmit
deriving DecidableEq

/-- One iteration of App.run: select over the feed case (forwarding to
`workerPool.Submit`), the error case (printing), and the default branch;
`pick` resolves the runtime's choice when both cases are ready. -/
def dispatchStep (pick : Bool) (s : DispatchState) : StepRes :=
  if s.feedRead.ready && (pick || !s.errChan.ready) then
    match s.feedRead.recv with
    | .got f c2 =>
        match s.pool.send f with
        | .sent p2 => .run { s with feedRead := c2, pool := p2 }
        | .panicked => .panicked
        | .blocked => .blockedSubmit
    | .zeroVal c2 =>
        match s.pool.send "" with
        | .sent p2 => .run { s with feedRead := c2, pool := p2 }
        | .panicked => .panicked
        | .blocked => .blockedSubmit
    | .wouldBlock => .run s
  else if s.errChan.ready then
    match s.errChan.recv with
    | .got _ c2 => .run { s with errChan := c2 }
    | _ => .run s
  else
    .run s

/-- Iterate the dispatch loop along a schedule of select choices. -/
def dispatchSteps : List Bool → DispatchState → StepRes
  | [], s => .run s
  | p :: ps, s =>
      match dispatchStep p s with
      | .run s2 => dispatchSteps ps s2
      | r => r

/-- The dispatch state right after App.Close() on a drained app:
`feedRead` and `errChan` (both `make(..., 5)`) closed, the pool's job
channel closed by `workerPool.Stop()`. -/
def closedDispatch : DispatchState :=
  { feedRead := { cap := 5, buf := [], closed := true }
  , errChan := { cap := 5, buf := [], closed := true }
  , pool := { cap := 100, buf := [], closed := true } }

/-- SyncHandler's per-goroutine `result` struct: the fetched articles
and the error — note there is no field recording the URL. -/
structure FetchResult where
  articles : List Article
  err : Option String
deriving DecidableEq

/-- The fan-in loop of SyncHandler: drain the results channel,
appending `err.Error()` to `errors` on failure and flattening the batch
into `articles` on success. -/
def collectResults (rs : List FetchResult) : List String × List Article :=
  rs.foldl
    (fun acc r =>
      match r.err with
      | some e => (acc.1 ++ [e], acc.2)
      | none => (acc.1, acc.2 ++ r.articles))
    ([], [])

/-- The response SyncHandler writes. -/
structure SyncResponse where
  status : Nat
  articles : List Article
  failures : List String
deriving DecidableEq

/-- SyncHandler after the fan-in, applied to the channel arrival order
(some permutation of one result per URL): HTTP 206 with both lists when
any fetch failed, else HTTP 200 with the aggregated articles. -/
def syncHandler (arrivals : List FetchResult) : SyncResponse :=
  let p := collectResults arrivals
  if p.1.length > 0 then { status := 206, articles := p.2, failures := p.1 }
  else { status := 200, articles := p.2, failures := p.1 }

/-- Flatten the successful batches in order, as the fan-in loop does. -/
def flatSucc : List FetchResult → List Article
  | [] => []
  | r :: rs => (if r.err = none then r.articles else []) ++ flatSucc rs

/-- A Go slice header: backing array identity, offset and length. -/
structure GoSlice where
  arr : Nat
  start : Nat
  len : Nat
deriving DecidableEq

/-- The heap of backing arrays, indexed by identity. -/
abbrev GoHeap := List (List Article)

/-- The list of articles a slice header denotes. -/
def readSlice (h : GoHeap) (s : GoSlice) : List Article :=
  ((h.getD s.arr []).drop s.start).take s.len

/-- Client-side mutation `s[i] = v` through a slice header: writes the
backing array in place (no-op when `i` is out of range). -/
def writeSlice (h : GoHeap) (s : GoSlice) (i : Nat) (v : Article) : GoHeap :=
  if i < s.len then h.set s.arr ((h.getD s.arr []).set (s.start + i) v) else h

/-- Slice-level worker-package `GetRecent`: both returns (`s.sorted` and
`s.sorted[:n]`) are headers over the store's own backing array — no
copy is made. -/
def WGetRecentSlice (ss : GoSlice) (n : Int) : Option GoSlice :=
  if (ss.len : Int) < n then some ss
  else if n < 0 then none
  else some { arr := ss.arr, start := ss.start, len := n.toNat }

/-- Slice-level chapter11/api `GetRecent`: `make` allocates a fresh
backing array, `copy` fills it from the store's first `n` articles, and
the returned header points at the new array. -/
def AGetRecentSlice (h : GoHeap) (ss : GoSlice) (n : Int) : GoHeap × GoSlice :=
  let m := if n ≤ 0 then 0
           else if (ss.len : Int) < n then ss.len else n.toNat
  (h ++ [readSlice h { arr := ss.arr, start := ss.start, len := m }],
   { arr := h.length, start := 0, len := m })

/-- Adjacent-order invariant the insertion process establishes: the
right neighbour of every adjacent pair does not want to sink past the
left one. -/
def Settled (c : Article → Article → Int) (l : List Article) : Prop :=
  l.Chain' (fun u v => ¬ c v u < 0)

/-- A comparator is sink-asymmetric when a negative verdict one way
forces a positive one the other way; both store comparators are. -/
def SinkAsymm (c : Article → Article → Int) : Prop :=
  ∀ x y, c x y < 0 → 0 < c y x

theorem wcmp_asymm : SinkAsymm wcmp := by
  intro x y
  unfold wcmp
  cases hx : x.published <;> cases hy : y.published <;> simp <;> split_ifs <;> omega

theorem acmp_asymm : SinkAsymm acmp := by
  intro x y
  unfold acmp
  cases hx : x.published <;> cases hy : y.published <;> simp <;> split_ifs <;> omega

theorem insRev_perm (c : Article → Article → Int) (a : Article) :
    ∀ r : List Article, (insRev c a r).Perm (a :: r) := by
  intro r
  induction r with
  | nil => simp [insRev]
  | cons b bs ih =>
      by_cases h : c a b < 0
      · simp only [insRev, if_pos h]
        exact ((ih.cons b).trans (List.Perm.swap a b bs))
      · simp [insRev, if_neg h]

theorem insertSorted_perm (c : Article → Article → Int) (l : List Article) (a : Article) :
    (insertSorted c l a).Perm (l ++ [a]) := by
  unfold insertSorted
  have h1 : ((insRev c a l.reverse).reverse).Perm (insRev c a l.reverse) :=
    List.reverse_perm _
  have h2 : (insRev c a l.reverse).Perm (a :: l.reverse) := insRev_perm c a l.reverse
  have h3 : (a :: l.reverse).Perm (a :: l) := (List.reverse_perm l).cons a
  have h4 : (a :: l).Perm (l ++ [a]) := (List.perm_append_singleton a l).symm
  exact ((h1.trans h2).trans h3).trans h4

theorem foldl_insertSorted_perm (c : Article → Article → Int) :
    ∀ (l acc : List Article), (l.foldl (insertSorted c) acc).Perm (acc ++ l) := by
  intro l
  induction l with
  | nil => intro acc; simp
  | cons a as ih =>
      intro acc
      have h1 := ih (insertSorted c acc a)
      have h2 : (insertSorted c acc a ++ as).Perm ((acc ++ [a]) ++ as) :=
        (insertSorted_perm c acc a).append_right as
      simpa [List.append_assoc] using (h1.trans h2)

theorem sortFunc_perm (c : Article → Article → Int) (l : List Article) :
    (sortFunc c l).Perm l := by
  simpa using foldl_insertSorted_perm c l []

theorem insRev_head (c : Article → Article → Int) (a : Article) (r : List Article) :
    (insRev c a r).head? = some a ∨ (insRev c a r).head? = r.head? := by
  cases r with
  | nil => left; rfl
  | cons b bs =>
      by_cases h : c a b < 0
      · right; simp [insRev, if_pos h]
      · left; simp [insRev, if_neg h]

theorem insRev_chain (c : Article → Article → Int) (hA : SinkAsymm c) (a : Article) :
    ∀ r : List Article, r.Chain' (fun x y => ¬ c x y < 0) →
      (insRev c a r).Chain' (fun x y => ¬ c x y < 0) := by
  intro r
  induction r with
  | nil => intro _; simp [insRev]
  | cons b bs ih =>
      intro h
      rw [List.chain'_cons'] at h
      by_cases hab : c a b < 0
      · simp only [insRev, if_pos hab]
        rw [List.chain'_cons']
        refine ⟨?_, ih h.2⟩
        intro y hy
        rcases insRev_head c a bs with hh | hh
        · rw [hh] at hy
          simp only [Option.mem_def, Option.some.injEq] at hy
          subst hy
          have := hA a b hab
          omega
        · rw [hh] at hy
          exact h.1 y hy
      · simp only [insRev, if_neg hab]
        rw [List.chain'_cons']
        refine ⟨?_, List.chain'_cons'.mpr h⟩
        intro y hy
        simp only [List.head?_cons, Option.mem_def, Option.some.injEq] at hy
        subst hy
        exact hab

theorem settled_iff_rev (c : Article → Article → Int) (l : List Article) :
    Settled c l ↔ l.reverse.Chain' (fun x y => ¬ c x y < 0) := by
  unfold Settled
  rw [List.chain'_reverse]
  rfl

theorem insertSorted_settled (c : Article → Article → Int) (hA : SinkAsymm c)
    (l : List Article) (a : Article) (h : Settled c l) :
    Settled c (insertSorted c l a) := by
  rw [settled_iff_rev] at h ⊢
  unfold insertSorted
  rw [List.reverse_reverse]
  exact insRev_chain c hA a l.reverse h

theorem foldl_insertSorted_settled (c : Article → Article → Int) (hA : SinkAsymm c) :
    ∀ (l acc : List Article), Settled c acc →
      Settled c (l.foldl (insertSorted c) acc) := by
  intro l
  induction l with
  | nil => intro acc h; simpa using h
  | cons a as ih =>
      intro acc h
      exact ih (insertSorted c acc a) (insertSorted_settled c hA acc a h)

theorem sortFunc_settled (c : Article → Article → Int) (hA : SinkAsymm c) (l : List Article) :
    Settled c (sortFunc c l) :=
  foldl_insertSorted_settled c hA l [] (by simp [Settled])

theorem sortFunc_append_one (c : Article → Article → Int) (l : List Article) (a : Article) :
    sortFunc c (l ++ [a]) = insertSorted c (sortFunc c l) a := by
  simp [sortFunc, List.foldl_append]

theorem insertSorted_no_sink (c : Article → Article → Int) (l : List Article) (a : Article)
    (h : ∀ x ∈ l.getLast?, ¬ c a x < 0) :
    insertSorted c l a = l ++ [a] := by
  unfold insertSorted
  cases hr : l.reverse with
  | nil =>
      have : l = [] := by simpa using congrArg List.reverse hr
      subst this
      simp [insRev]
  | cons x r2 =>
      have hx : x ∈ l.getLast? := by
        rw [← List.head?_reverse, hr]
        rfl
      have hno : ¬ c a x < 0 := h x hx
      have hl : l = (x :: r2).reverse := by
        rw [← hr, List.reverse_reverse]
      simp [insRev, if_neg hno, hl]

theorem sortFunc_fixed (c : Article → Article → Int) :
    ∀ l : List Article, Settled c l → sortFunc c l = l := by
  intro l
  induction l using List.reverseRecOn with
  | nil => intro _; rfl
  | append_singleton l a ih =>
      intro h
      unfold Settled at h
      rw [List.chain'_append] at h
      rw [sortFunc_append_one, ih h.1]
      refine insertSorted_no_sink c l a ?_
      intro x hx
      exact h.2.2 x hx a rfl

theorem sortFunc_idem (c : Article → Article → Int) (hA : SinkAsymm c) (l : List Article) :
    sortFunc c (sortFunc c l) = sortFunc c l :=
  sortFunc_fixed c _ (sortFunc_settled c hA l)

theorem sortFunc_absorb (c : Article → Article → Int) (hA : SinkAsymm c) :
    ∀ (r l : List Article), sortFunc c (sortFunc c l ++ r) = sortFunc c (l ++ r) := by
  intro r
  induction r using List.reverseRecOn with
  | nil => intro l; simpa using sortFunc_idem c hA l
  | append_singleton r x ih =>
      intro l
      rw [← List.append_assoc, ← List.append_assoc, sortFunc_append_one, ih l,
        ← sortFunc_append_one]

theorem foldl_addStep_char :
    ∀ (l : List Article) (cache : List String) (sorted : List Article) (d : Bool),
      l.foldl addStep { cache := cache, sorted := sorted, dirty := d }
        = { cache := ((newArticles cache l).map Article.link).reverse ++ cache
          , sorted := sorted ++ newArticles cache l
          , dirty := d || !(newArticles cache l).isEmpty } := by
  intro l
  induction l with
  | nil => intro cache sorted d; simp [newArticles]
  | cons a as ih =>
      intro cache sorted d
      by_cases h : a.link ∈ cache
      · simp only [List.foldl_cons, addStep, if_pos h, newArticles]
        exact ih cache sorted d
      · simp only [List.foldl_cons, addStep, if_neg h, newArticles]
        rw [ih (a.link :: cache) (sorted ++ [a]) true]
        simp [List.append_assoc]

theorem AddArticles_char (s : WArticleStore) (l : List Article) :
    s.AddArticles l =
      if (newArticles s.cache l).isEmpty then s
      else
        { cache := ((newArticles s.cache l).map Article.link).reverse ++ s.cache
        , sorted := sortFunc wcmp (s.sorted ++ newArticles s.cache l) } := by
  unfold WArticleStore.AddArticles
  rw [foldl_addStep_char]
  by_cases h : (newArticles s.cache l).isEmpty
  · rw [List.isEmpty_iff] at h
    simp [h, List.isEmpty_iff]
  · rw [if_neg h]
    simp only [Bool.false_or]
    rw [List.isEmpty_iff] at h
    simp [h]

theorem newArticles_congr :
    ∀ (l : List Article) (c1 c2 : List String), (∀ x, x ∈ c1 ↔ x ∈ c2) →
      newArticles c1 l = newArticles c2 l := by
  intro l
  induction l with
  | nil => intro c1 c2 h; rfl
  | cons a as ih =>
      intro c1 c2 h
      by_cases ha : a.link ∈ c1
      · rw [newArticles, if_pos ha, newArticles, if_pos ((h a.link).mp ha)]
        exact ih c1 c2 h
      · rw [newArticles, if_neg ha, newArticles, if_neg (fun hx => ha ((h a.link).mpr hx))]
        congr 1
        refine ih _ _ ?_
        intro x
        simp [List.mem_cons, h x]

theorem newArticles_append :
    ∀ (p l : List Article) (c c2 : List String),
      (∀ x, x ∈ c2 ↔ x ∈ c ∨ x ∈ p.map Article.link) →
      newArticles c (p ++ l) = newArticles c p ++ newArticles c2 l := by
  intro p
  induction p with
  | nil =>
      intro l c c2 h
      simp only [List.nil_append, newArticles]
      exact newArticles_congr l c c2 (fun x => by simpa using (h x).symm)
  | cons a as ih =>
      intro l c c2 h
      by_cases ha : a.link ∈ c
      · simp only [List.cons_append, newArticles, if_pos ha]
        refine ih l c c2 ?_
        intro x
        rw [h x]
        constructor
        · rintro (hx | hx)
          · exact Or.inl hx
          · simp only [List.map_cons, List.mem_cons] at hx
            rcases hx with hx | hx
            · exact Or.inl (hx ▸ ha)
            · exact Or.inr hx
        · rintro (hx | hx)
          · exact Or.inl hx
          · exact Or.inr (by simp [hx])
      · have hmem : ∀ x, x ∈ c2 ↔ x ∈ (a.link :: c) ∨ x ∈ List.map Article.link as := by
          intro x
          rw [h x]
          simp only [List.map_cons, List.mem_cons]
          tauto
        simp only [List.cons_append, newArticles, if_neg ha]
        exact congrArg (List.cons a) (ih l (a.link :: c) c2 hmem)

theorem mem_newArticles_links :
    ∀ (p : List Article) (c : List String) (x : String),
      x ∈ (newArticles c p).map Article.link ↔ (x ∈ p.map Article.link ∧ x ∉ c) := by
  intro p
  induction p with
  | nil => intro c x; simp [newArticles]
  | cons a as ih =>
      intro c x
      by_cases ha : a.link ∈ c
      · rw [newArticles, if_pos ha, ih]
        simp only [List.map_cons, List.mem_cons]
        constructor
        · rintro ⟨hx, hc⟩; exact ⟨Or.inr hx, hc⟩
        · rintro ⟨hx | hx, hc⟩
          · exact absurd (hx ▸ ha) hc
          · exact ⟨hx, hc⟩
      · rw [newArticles, if_neg ha]
        simp only [List.map_cons, List.mem_cons, ih]
        constructor
        · rintro (hx | ⟨hx, hc⟩)
          · exact ⟨Or.inl hx, hx ▸ ha⟩
          · refine ⟨Or.inr hx, ?_⟩
            intro hcx
            exact hc (by simp [hcx])
        · rintro ⟨hx | hx, hc⟩
          · exact Or.inl hx
          · by_cases hxa : x = a.link
            · exact Or.inl hxa
            · exact Or.inr ⟨hx, by simp [List.mem_cons, hxa, hc]⟩

theorem newArticles_links_nodup :
    ∀ (p : List Article) (c : List String), ((newArticles c p).map Article.link).Nodup := by
  intro p
  induction p with
  | nil => intro c; simp [newArticles]
  | cons a as ih =>
      intro c
      by_cases ha : a.link ∈ c
      · rw [newArticles, if_pos ha]; exact ih c
      · rw [newArticles, if_neg ha]
        simp only [List.map_cons, List.nodup_cons]
        refine ⟨?_, ih (a.link :: c)⟩
        rw [mem_newArticles_links]
        rintro ⟨_, hc⟩
        exact hc (by simp)

theorem newArticles_length :
    ∀ (p : List Article) (c : List String),
      (newArticles c p).length = ((p.map Article.link).toFinset \ c.toFinset).card := by
  intro p
  induction p with
  | nil => intro c; simp [newArticles]
  | cons a as ih =>
      intro c
      by_cases ha : a.link ∈ c
      · rw [newArticles, if_pos ha, ih]
        simp only [List.map_cons, List.toFinset_cons]
        rw [Finset.insert_sdiff_of_mem _ (by simpa using ha)]
      · rw [newArticles, if_neg ha]
        simp only [List.length_cons, ih, List.map_cons, List.toFinset_cons]
        have hnc : a.link ∉ c.toFinset := by simpa using ha
        rw [Finset.insert_sdiff_of_not_mem _ hnc, Finset.sdiff_insert]
        by_cases hs : a.link ∈ (as.map Article.link).toFinset \ c.toFinset
        · rw [Finset.insert_eq_self.mpr hs]
          exact Finset.card_erase_add_one hs
        · rw [Finset.erase_eq_of_not_mem hs, Finset.card_insert_of_not_mem hs]

theorem newArticles_first :
    ∀ (p : List Article) (c : List String) (a : Article), a ∈ newArticles c p →
      a.link ∉ c ∧ (p.filter (fun x => x.link == a.link)).head? = some a := by
  intro p
  induction p with
  | nil => intro c a h; simp [newArticles] at h
  | cons x xs ih =>
      intro c a h
      by_cases hx : x.link ∈ c
      · rw [newArticles, if_pos hx] at h
        obtain ⟨hnc, hh⟩ := ih c a h
        refine ⟨hnc, ?_⟩
        have hne : (x.link == a.link) = false := by
          simp only [beq_eq_false_iff_ne, ne_eq]
          intro he
          exact hnc (he ▸ hx)
        simp [List.filter_cons, hne, hh]
      · rw [newArticles, if_neg hx] at h
        rcases List.mem_cons.mp h with rfl | h2
        · refine ⟨hx, ?_⟩
          simp [List.filter_cons]
        · obtain ⟨hnc, hh⟩ := ih (x.link :: c) a h2
          have hna : a.link ∉ c := fun hm => hnc (by simp [hm])
          have hne : (x.link == a.link) = false := by
            simp only [beq_eq_false_iff_ne, ne_eq]
            intro he
            exact hnc (by simp [he])
          exact ⟨hna, by simp [List.filter_cons, hne, hh]⟩

/-- Invariant tying a worker store to the stream of articles inserted so
far: the cache holds exactly the stream's links, and the backing slice
is a permutation of the stream's first-occurrence articles. -/
def WInv (s : WArticleStore) (p : List Article) : Prop :=
  (∀ x, x ∈ s.cache ↔ x ∈ p.map Article.link) ∧ s.sorted.Perm (newArticles [] p)

theorem WInv_step (s : WArticleStore) (p l : List Article) (h : WInv s p) :
    WInv (s.AddArticles l) (p ++ l) := by
  obtain ⟨hc, hs⟩ := h
  have hsplit : newArticles [] (p ++ l) = newArticles [] p ++ newArticles s.cache l :=
    newArticles_append p l [] s.cache (fun x => by simp [hc x])
  rw [AddArticles_char]
  by_cases he : (newArticles s.cache l).isEmpty
  · rw [if_pos he]
    rw [List.isEmpty_iff] at he
    have hsub : ∀ x, x ∈ l.map Article.link → x ∈ s.cache := by
      intro x hx
      by_contra hnx
      have hm : x ∈ (newArticles s.cache l).map Article.link :=
        (mem_newArticles_links l s.cache x).mpr ⟨hx, hnx⟩
      rw [he] at hm
      simp at hm
    constructor
    · intro x
      rw [hc x]
      simp only [List.map_append, List.mem_append]
      constructor
      · exact Or.inl
      · rintro (hx | hx)
        · exact hx
        · exact (hc x).mp (hsub x hx)
    · rw [hsplit, he, List.append_nil]
      exact hs
  · rw [if_neg he]
    constructor
    · intro x
      simp only [List.mem_append, List.mem_reverse, mem_newArticles_links, hc x,
        List.map_append]
      constructor
      · rintro (⟨hx, _⟩ | hx)
        · exact Or.inr hx
        · exact Or.inl hx
      · rintro (hx | hx)
        · exact Or.inr hx
        · by_cases hp : x ∈ p.map Article.link
          · exact Or.inr hp
          · exact Or.inl ⟨hx, hp⟩
    · have h1 : (sortFunc wcmp (s.sorted ++ newArticles s.cache l)).Perm
          (s.sorted ++ newArticles s.cache l) := sortFunc_perm wcmp _
      have h2 : (s.sorted ++ newArticles s.cache l).Perm
          (newArticles [] p ++ newArticles s.cache l) :=
        hs.append_right _
      rw [hsplit]
      exact h1.trans h2

theorem WInv_fold :
    ∀ (bs : List (List Article)) (s : WArticleStore) (p : List Article),
      WInv s p → WInv (bs.foldl WArticleStore.AddArticles s) (p ++ bs.flatten) := by
  intro bs
  induction bs with
  | nil => intro s p h; simpa using h
  | cons b bs ih =>
      intro s p h
      have h2 := ih (s.AddArticles b) (p ++ b) (WInv_step s p b h)
      simpa [List.append_assoc] using h2

/-- C1: starting from an empty worker-package store, any sequence of
batch insertions leaves pairwise-distinct links, a count equal to the
number of distinct inserted links, and for each stored article the
first-arriving copy of its link; the chapter11/api store, by contrast,
grows by the full batch length, duplicates included. -/
theorem C1_dedup (bs : List (List Article)) :
    ((bs.foldl WArticleStore.AddArticles newWArticleStore).sorted.map Article.link).Nodup ∧
    (bs.foldl WArticleStore.AddArticles newWArticleStore).sorted.length
      = (bs.flatten.map Article.link).toFinset.card ∧
    (∀ a ∈ (bs.foldl WArticleStore.AddArticles newWArticleStore).sorted,
      (bs.flatten.filter (fun x => x.link == a.link)).head? = some a) ∧
    (∀ (t : AArticleStore) (l : List Article),
      (t.AddArticles l).articles.length = t.articles.length + l.length) := by
  have h0 : WInv newWArticleStore [] := by
    constructor
    · intro x; simp [newWArticleStore]
    · simp [newWArticleStore, newArticles]
  have h := WInv_fold bs newWArticleStore [] h0
  simp only [List.nil_append] at h
  obtain ⟨hc, hs⟩ := h
  refine ⟨?_, ?_, ?_, ?_⟩
  · rw [(hs.map Article.link).nodup_iff]
    exact newArticles_links_nodup bs.flatten []
  · rw [hs.length_eq, newArticles_length]
    simp
  · intro a ha
    exact (newArticles_first bs.flatten [] a (hs.mem_iff.mp ha)).2
  · intro t l
    unfold AArticleStore.AddArticles
    simp [(sortFunc_perm acmp (t.articles ++ l)).length_eq]

def cArtA : Article := ⟨"first", "a", some 5⟩

def cArtA2 : Article := ⟨"second", "a", some 9⟩

def cArtB : Article := ⟨"third", "b", none⟩

theorem C1_dedup_witness :
    (([[cArtA, cArtA2, cArtB]].foldl WArticleStore.AddArticles
        newWArticleStore).sorted.map Article.link).Nodup ∧
    ((List.flatten [[cArtA, cArtA2, cArtB]]).filter
        (fun x => x.link == cArtA.link)).head? = some cArtA := by
  exact ⟨(C1_dedup [[cArtA, cArtA2, cArtB]]).1,
    (C1_dedup [[cArtA, cArtA2, cArtB]]).2.2.1 cArtA (by decide)⟩

/-- C1 counterexample on the claim as stated: the chapter11/api store,
one of the two cited AddArticles implementations, keeps both copies of a
duplicated identity — its count after the batch is 2, not the 1 distinct
identity inserted. -/
theorem C1_dedup_cex :
    (newAArticleStore.AddArticles [cArtA, cArtA]).articles.length = 2 ∧
    ((newAArticleStore.AddArticles [cArtA, cArtA]).articles.map Article.link)
      = [cArtA.link, cArtA.link] ∧
    ¬ ((newAArticleStore.AddArticles [cArtA, cArtA]).articles.map Article.link).Nodup := by
  refine ⟨by decide, by decide, by decide⟩

/-- Number of sort passes the batch AddArticles performs: one iff the
dirty flag ends up set. -/
def WArticleStore.AddArticlesSortPasses (s : WArticleStore) (l : List Article) : Nat :=
  if (l.foldl addStep { cache := s.cache, sorted := s.sorted, dirty := false }).dirty
  then 1 else 0

/-- Number of sort passes a per-item AddArticle loop performs: one per
non-duplicate article. -/
def iteratedSortPasses : WArticleStore → List Article → Nat
  | _, [] => 0
  | s, a :: as => (if a.link ∈ s.cache then 0 else 1) + iteratedSortPasses (s.AddArticle a) as

theorem foldl_AddArticle_eq :
    ∀ (l : List Article) (s : WArticleStore),
      l.foldl WArticleStore.AddArticle s = s.AddArticles l := by
  intro l
  induction l with
  | nil =>
      intro s
      rw [AddArticles_char]
      simp [newArticles]
  | cons a as ih =>
      intro s
      by_cases h : a.link ∈ s.cache
      · have h1 : s.AddArticle a = s := by rw [WArticleStore.AddArticle, if_pos h]
        have h2 : newArticles s.cache (a :: as) = newArticles s.cache as := by
          rw [newArticles, if_pos h]
        rw [List.foldl_cons, h1, ih s, AddArticles_char, AddArticles_char, h2]
      · have h1 : s.AddArticle a
            = ⟨a.link :: s.cache, sortFunc wcmp (s.sorted ++ [a])⟩ := by
          rw [WArticleStore.AddArticle, if_neg h]
        have h2 : newArticles s.cache (a :: as)
            = a :: newArticles (a.link :: s.cache) as := by
          rw [newArticles, if_neg h]
        rw [List.foldl_cons, h1,
          ih ⟨a.link :: s.cache, sortFunc wcmp (s.sorted ++ [a])⟩,
          AddArticles_char, AddArticles_char, h2]
        by_cases he : (newArticles (a.link :: s.cache) as).isEmpty = true
        · rw [List.isEmpty_iff] at he
          simp [he]
        · have habs := sortFunc_absorb wcmp wcmp_asymm
            (newArticles (a.link :: s.cache) as) (s.sorted ++ [a])
          simp only [he, if_false, List.isEmpty_cons, Bool.false_eq_true]
          rw [habs]
          simp [List.append_assoc]

theorem iteratedSortPasses_eq :
    ∀ (l : List Article) (s : WArticleStore),
      iteratedSortPasses s l = (newArticles s.cache l).length := by
  intro l
  induction l with
  | nil => intro s; rfl
  | cons a as ih =>
      intro s
      by_cases h : a.link ∈ s.cache
      · have h1 : s.AddArticle a = s := by rw [WArticleStore.AddArticle, if_pos h]
        simp only [iteratedSortPasses, if_pos h, newArticles, h1, ih s]
        omega
      · have h1 : s.AddArticle a
            = ⟨a.link :: s.cache, sortFunc wcmp (s.sorted ++ [a])⟩ := by
          rw [WArticleStore.AddArticle, if_neg h]
        simp only [iteratedSortPasses, if_neg h, newArticles, h1, ih]
        simp only [List.length_cons]
        omega

/-- C9: batch insertion is observationally the per-item loop — the
resulting store states are equal — while running at most one sort pass,
where the per-item loop runs one pass per freshly inserted article. -/
theorem C9_batch_refinement (s : WArticleStore) (l : List Article) :
    l.foldl WArticleStore.AddArticle s = s.AddArticles l ∧
    s.AddArticlesSortPasses l ≤ 1 ∧
    iteratedSortPasses s l = (newArticles s.cache l).length := by
  refine ⟨foldl_AddArticle_eq l s, ?_, iteratedSortPasses_eq l s⟩
  unfold WArticleStore.AddArticlesSortPasses
  split
  · exact le_refl 1
  · exact Nat.zero_le 1

/-- The pairwise ordering the spec asks of GetRecent results: dated
articles in non-increasing date order, undated articles after every
dated one. -/
def keyGE (u v : Article) : Bool :=
  match u.published, v.published with
  | some x, some y => y ≤ x
  | some _, none => true
  | none, none => true
  | none, some _ => false

theorem keyGE_of_not_acmp (u v : Article) (h : ¬ acmp v u < 0) : keyGE u v = true := by
  unfold acmp at h
  unfold keyGE
  cases hu : u.published <;> cases hv : v.published <;> rw [hu, hv] at h <;> simp_all <;> omega

theorem keyGE_trans (a b c : Article)
    (h1 : keyGE a b = true) (h2 : keyGE b c = true) : keyGE a c = true := by
  unfold keyGE at h1 h2 ⊢
  cases ha : a.published <;> cases hb : b.published <;> cases hc : c.published <;>
    rw [ha, hb] at h1 <;> rw [hb, hc] at h2 <;> simp_all <;> omega

theorem chain_to_pairwise (R : Article → Article → Prop)
    (tr : ∀ a b c, R a b → R b c → R a c) :
    ∀ l : List Article, l.Chain' R → l.Pairwise R := by
  intro l
  induction l with
  | nil => intro _; exact List.Pairwise.nil
  | cons a as ih =>
      intro h
      rw [List.chain'_cons'] at h
      have hp := ih h.2
      refine List.Pairwise.cons ?_ hp
      intro b hb
      induction as with
      | nil => cases hb
      | cons x xs ihx =>
          rcases List.mem_cons.mp hb with rfl | hb2
          · exact h.1 b (by simp)
          · have hx : R a x := h.1 x (by simp)
            rw [List.chain'_cons'] at *
            have hxb : x = b ∨ R x b := by
              rcases List.mem_cons.mp hb with rfl | hb3
              · exact Or.inl rfl
              · exact Or.inr (List.rel_of_pairwise_cons hp hb3)
            rcases hxb with rfl | hxb
            · exact hx
            · exact tr a x b hx hxb

theorem settled_acmp_pairwise (l : List Article) (h : Settled acmp l) :
    l.Pairwise (fun u v => keyGE u v = true) := by
  unfold Settled at h
  have h2 : l.Chain' (fun u v => keyGE u v = true) :=
    List.Chain'.imp (fun a b hab => keyGE_of_not_acmp a b hab) h
  exact chain_to_pairwise _ keyGE_trans l h2

theorem astore_reach_settled :
    ∀ (bs : List (List Article)) (s : AArticleStore), Settled acmp s.articles →
      Settled acmp ((bs.foldl AArticleStore.AddArticles s).articles) := by
  intro bs
  induction bs with
  | nil => intro s h; simpa using h
  | cons b bs ih =>
      intro s h
      exact ih (s.AddArticles b) (sortFunc_settled acmp acmp_asymm _)

theorem AGetRecent_length (s : AArticleStore) (n : Int) :
    (s.GetRecent n).length = min n.toNat s.articles.length := by
  unfold AArticleStore.GetRecent
  split
  · simp
    omega
  · simp only [List.length_take]
    split <;> omega

/-- C2 (amended): on every reachable chapter11/api store and every
integer n, GetRecent(n) is pairwise ordered by non-increasing
publication date with undated articles after all dated ones, and its
length is min(n clamped at 0, stored count). -/
theorem C2_getRecent_sorted (bs : List (List Article)) (n : Int) :
    ((bs.foldl AArticleStore.AddArticles newAArticleStore).GetRecent n).Pairwise
      (fun u v => keyGE u v = true) ∧
    ((bs.foldl AArticleStore.AddArticles newAArticleStore).GetRecent n).length
      = min n.toNat (bs.foldl AArticleStore.AddArticles newAArticleStore).articles.length := by
  refine ⟨?_, AGetRecent_length _ n⟩
  have hset : Settled acmp ((bs.foldl AArticleStore.AddArticles newAArticleStore).articles) :=
    astore_reach_settled bs newAArticleStore (by simp [newAArticleStore, Settled])
  have hp := settled_acmp_pairwise _ hset
  unfold AArticleStore.GetRecent
  split
  · exact List.Pairwise.nil
  · exact hp.sublist (List.take_sublist _ _)

/-- C2 counterexample on the claim as stated: the worker-package store's
comparator treats undated articles as equal to everything, so an undated
article can precede a dated one in a GetRecent result. -/
theorem C2_undated_cex :
    (newWArticleStore.AddArticles [cArtB, ⟨"dated", "d", some 10⟩]).GetRecent 2
      = some [cArtB, ⟨"dated", "d", some 10⟩] ∧
    cArtB.published = none ∧
    ¬ ([cArtB, ⟨"dated", "d", some 10⟩].Pairwise (fun u v => keyGE u v = true)) := by
  refine ⟨by decide, by decide, by decide⟩

theorem getD_set_ne_heap (h : GoHeap) (m n : Nat) (a : List Article) (hmn : m ≠ n) :
    (h.set m a).getD n [] = h.getD n [] := by
  simp [List.getD, List.getElem?_set_ne hmn]

theorem readSlice_write_fresh (h : GoHeap) (ss : GoSlice) (X : List Article) (i : Nat)
    (v : Article) (m : Nat) (harr : ss.arr < h.length) :
    readSlice (writeSlice (h ++ [X]) ⟨h.length, 0, m⟩ i v) ss = readSlice h ss := by
  have hne : h.length ≠ ss.arr := by omega
  unfold writeSlice readSlice
  simp only []
  split
  · rw [getD_set_ne_heap _ _ _ _ hne, List.getD_append _ _ _ _ harr]
  · rw [List.getD_append _ _ _ _ harr]

/-- C4 (amended): chapter11/api GetRecent returns a freshly allocated
copy — writing any element of the returned slice leaves the store's own
slice, hence every later GetRecent result, unchanged. -/
theorem C4_copy_astore (h : GoHeap) (ss : GoSlice) (n : Int) (i : Nat) (v : Article)
    (harr : ss.arr < h.length) :
    readSlice (writeSlice (AGetRecentSlice h ss n).1 (AGetRecentSlice h ss n).2 i v) ss
      = readSlice h ss := by
  exact readSlice_write_fresh h ss _ i v _ harr

theorem C4_copy_astore_witness :
    readSlice
      (writeSlice (AGetRecentSlice [[cArtA]] ⟨0, 0, 1⟩ 1).1
        (AGetRecentSlice [[cArtA]] ⟨0, 0, 1⟩ 1).2 0 cArtB)
      ⟨0, 0, 1⟩ = readSlice [[cArtA]] ⟨0, 0, 1⟩ :=
  C4_copy_astore [[cArtA]] ⟨0, 0, 1⟩ 1 0 cArtB (by decide)

/-- C4 counterexample: the worker-package GetRecent returns a header
over the live backing array; writing through it changes what the
store's own slice — and so any later GetRecent — shows. -/
theorem C4_alias_cex :
    WGetRecentSlice ⟨0, 0, 1⟩ 1 = some ⟨0, 0, 1⟩ ∧
    readSlice ([[cArtA]] : GoHeap) ⟨0, 0, 1⟩ = [cArtA] ∧
    readSlice (writeSlice [[cArtA]] ⟨0, 0, 1⟩ 0 cArtB) ⟨0, 0, 1⟩ = [cArtB] ∧
    cArtA ≠ cArtB := by
  refine ⟨by decide, by decide, by decide, by decide⟩

/-- C5 (amended): chapter11/api GetRecent is total — empty for n ≤ 0
and the whole store for n ≥ count — while the worker-package GetRecent
panics exactly on negative n. -/
theorem C5_getRecent_total (s : AArticleStore) (t : WArticleStore) (n : Int) :
    (n ≤ 0 → s.GetRecent n = []) ∧
    ((s.articles.length : Int) ≤ n → s.GetRecent n = s.articles) ∧
    (t.GetRecent n = none ↔ n < 0) := by
  refine ⟨?_, ?_, ?_⟩
  · intro h
    unfold AArticleStore.GetRecent
    rw [if_pos h]
  · intro h
    unfold AArticleStore.GetRecent
    split
    · have h0 : s.articles.length = 0 := by omega
      rw [List.length_eq_zero] at h0
      rw [h0]
    · split
      · exact List.take_length s.articles
      · have h0 : n.toNat = s.articles.length := by omega
        rw [h0]
        exact List.take_length s.articles
  · unfold WArticleStore.GetRecent
    split_ifs with h1 h2
    · simp only [Option.some_ne_none, false_iff]
      omega
    · simp only [true_iff]
      exact h2
    · simp only [Option.some_ne_none, false_iff]
      omega

theorem C5_getRecent_total_witness :
    AArticleStore.GetRecent newAArticleStore (-2) = [] ∧
    AArticleStore.GetRecent newAArticleStore 5 = newAArticleStore.articles ∧
    (WArticleStore.GetRecent newWArticleStore (-2) = none ↔ (-2 : Int) < 0) :=
  ⟨(C5_getRecent_total newAArticleStore newWArticleStore (-2)).1 (by decide),
   (C5_getRecent_total newAArticleStore newWArticleStore 5).2.1 (by decide),
   (C5_getRecent_total newAArticleStore newWArticleStore (-2)).2.2⟩

/-- C5 counterexample: the worker-package GetRecent evaluates
s.sorted[:n] for negative n — an out-of-range slice expression panics
instead of yielding an empty result. -/
theorem C5_negative_panics_cex :
    WArticleStore.GetRecent newWArticleStore (-1) = none := by decide

theorem flatSucc_perm {l1 l2 : List FetchResult} (h : l1.Perm l2) :
    (flatSucc l1).Perm (flatSucc l2) := by
  induction h with
  | nil => exact List.Perm.refl _
  | cons x h ih =>
      simp only [flatSucc]
      exact ih.append_left _
  | swap x y l =>
      simp only [flatSucc]
      rw [← List.append_assoc, ← List.append_assoc]
      exact List.perm_append_comm.append_right (flatSucc l)
  | trans h1 h2 ih1 ih2 => exact ih1.trans ih2

theorem collect_foldl_char :
    ∀ (rs : List FetchResult) (e0 : List String) (a0 : List Article),
      rs.foldl
        (fun acc r =>
          match r.err with
          | some e => (acc.1 ++ [e], acc.2)
          | none => (acc.1, acc.2 ++ r.articles))
        (e0, a0)
        = (e0 ++ rs.filterMap FetchResult.err, a0 ++ flatSucc rs) := by
  intro rs
  induction rs with
  | nil => intro e0 a0; simp [flatSucc]
  | cons r rs ih =>
      intro e0 a0
      cases hr : r.err with
      | some e =>
          simp only [List.foldl_cons, hr, List.filterMap_cons, flatSucc]
          rw [ih (e0 ++ [e]) a0]
          simp [hr, List.append_assoc]
      | none =>
          simp only [List.foldl_cons, hr, List.filterMap_cons, flatSucc]
          rw [ih e0 (a0 ++ r.articles)]
          simp [hr, List.append_assoc]

theorem collectResults_char (rs : List FetchResult) :
    collectResults rs = (rs.filterMap FetchResult.err, flatSucc rs) := by
  unfold collectResults
  rw [collect_foldl_char]
  simp

theorem filterMap_err_length :
    ∀ rs : List FetchResult,
      (rs.filterMap FetchResult.err).length = (rs.filter (fun r => r.err.isSome)).length := by
  intro rs
  induction rs with
  | nil => rfl
  | cons r rs ih =>
      cases hr : r.err <;> simp [List.filterMap_cons, List.filter_cons, hr, ih]

theorem filter_err_split :
    ∀ rs : List FetchResult,
      (rs.filter (fun r => r.err.isSome)).length
        + (rs.filter (fun r => r.err.isNone)).length = rs.length := by
  intro rs
  induction rs with
  | nil => rfl
  | cons r rs ih =>
      cases hr : r.err <;> simp [List.filter_cons, hr] <;> omega

theorem filter_over_map (urls : List String) (fetch : String → FetchResult)
    (p : FetchResult → Bool) :
    ((urls.map fetch).filter p).length = (urls.filter (fun u => p (fetch u))).length := by
  induction urls with
  | nil => rfl
  | cons u us ih =>
      by_cases hu : p (fetch u) <;> simp [List.filter_cons, hu, ih]

/-- C3: for any list of locators, any per-locator outcome assignment and
any arrival order of the per-goroutine results, the fan-in returns one
failure entry per failing locator (their multiset is exactly the errors
produced), the items of exactly the successful batches, and in total
exactly one outcome per submitted locator — none lost, none
duplicated. -/
theorem C3_fan_in (urls : List String) (fetch : String → FetchResult)
    (arrivals : List FetchResult) (h : arrivals.Perm (urls.map fetch)) :
    (collectResults arrivals).1.Perm ((urls.map fetch).filterMap FetchResult.err) ∧
    (collectResults arrivals).2.Perm (flatSucc (urls.map fetch)) ∧
    (collectResults arrivals).1.length
      = (urls.filter (fun u => (fetch u).err.isSome)).length ∧
    (collectResults arrivals).1.length
      + (urls.filter (fun u => (fetch u).err.isNone)).length = urls.length := by
  rw [collectResults_char]
  refine ⟨h.filterMap FetchResult.err, flatSucc_perm h, ?_, ?_⟩
  · rw [(h.filterMap FetchResult.err).length_eq, filterMap_err_length,
      filter_over_map urls fetch (fun r => r.err.isSome)]
  · rw [(h.filterMap FetchResult.err).length_eq, filterMap_err_length,
      filter_over_map urls fetch (fun r => r.err.isSome)]
    have hsplit := filter_err_split (urls.map fetch)
    rw [filter_over_map urls fetch (fun r => r.err.isSome),
      filter_over_map urls fetch (fun r => r.err.isNone), List.length_map] at hsplit
    exact hsplit

def cexFetch (u : String) : FetchResult :=
  if u = "a" then { articles := [], err := some "boom" }
  else { articles := [cArtA], err := none }

theorem C3_fan_in_witness :
    (collectResults [cexFetch "b", cexFetch "a"]).1.Perm
      ((["a", "b"].map cexFetch).filterMap FetchResult.err) ∧
    (collectResults [cexFetch "b", cexFetch "a"]).2.Perm
      (flatSucc (["a", "b"].map cexFetch)) ∧
    (collectResults [cexFetch "b", cexFetch "a"]).1.length
      = (["a", "b"].filter (fun u => (cexFetch u).err.isSome)).length ∧
    (collectResults [cexFetch "b", cexFetch "a"]).1.length
      + (["a", "b"].filter (fun u => (cexFetch u).err.isNone)).length
      = (["a", "b"] : List String).length :=
  C3_fan_in ["a", "b"] cexFetch [cexFetch "b", cexFetch "a"] (by decide)

/-- C8 counterexample: the per-goroutine result struct records only the
error, not the URL — two requests over different failing locators
produce byte-identical responses, so a failure entry cannot carry its
originating locator. -/
theorem C8_locator_cex :
    syncHandler (["u1"].map (fun _ => ({ articles := [], err := some "boom" } : FetchResult)))
      = syncHandler (["u2"].map (fun _ => ({ articles := [], err := some "boom" } : FetchResult))) ∧
    (syncHandler (["u1"].map (fun _ => ({ articles := [], err := some "boom" } : FetchResult)))).failures
      = ["boom"] ∧
    ("u1" : String) ≠ "u2" := by
  refine ⟨by decide, by decide, by decide⟩

/-- C8 (amended): with at least one failing fetch, the handler answers
HTTP 206 carrying the usable partial item list plus one failure entry
per failed locator — each entry being the underlying error message only,
since the result struct has no locator field. -/
theorem C8_partial_result (arrivals : List FetchResult)
    (h : (arrivals.any (fun r => r.err.isSome)) = true) :
    (syncHandler arrivals).status = 206 ∧
    (syncHandler arrivals).articles = flatSucc arrivals ∧
    (syncHandler arrivals).failures = arrivals.filterMap FetchResult.err ∧
    (syncHandler arrivals).failures.length
      = (arrivals.filter (fun r => r.err.isSome)).length := by
  have hpos : 0 < (arrivals.filterMap FetchResult.err).length := by
    rw [List.any_eq_true] at h
    obtain ⟨r, hr, hsome⟩ := h
    rw [Option.isSome_iff_exists] at hsome
    obtain ⟨e, he⟩ := hsome
    have hm : e ∈ arrivals.filterMap FetchResult.err :=
      List.mem_filterMap.mpr ⟨r, hr, he⟩
    exact List.length_pos.mpr (List.ne_nil_of_mem hm)
  unfold syncHandler
  rw [collectResults_char]
  simp only [hpos, if_pos]
  exact ⟨trivial, trivial, trivial, filterMap_err_length arrivals⟩

def cexArrivals : List FetchResult :=
  [{ articles := [], err := some "x" }, { articles := [cArtA], err := none }]

theorem C8_partial_result_witness :
    (syncHandler cexArrivals).status = 206 ∧
    (syncHandler cexArrivals).articles = flatSucc cexArrivals ∧
    (syncHandler cexArrivals).failures = cexArrivals.filterMap FetchResult.err ∧
    (syncHandler cexArrivals).failures.length
      = (cexArrivals.filter (fun r => r.err.isSome)).length :=
  C8_partial_result cexArrivals (by decide)

/-- C6: Go panics on any send to a closed channel, so Submit after Stop
always fails fast with a panic — an explicit failure, never a silent
block. -/
theorem C6_submit_after_stop (wp : WorkerPool) (url : String) :
    (wp.Stop).Submit url = SendResult.panicked := by
  simp [WorkerPool.Stop, WorkerPool.Submit, GoChan.send]

/-- C7 counterexample: from the state where both input channels are
closed and drained, one loop iteration either continues in the very same
running state (error case selected: a closed channel yields its zero
value) or panics (feed case selected: the zero-value locator is
forwarded to the stopped pool) — the loop does not stop. -/
theorem C7_loop_cex :
    dispatchStep false closedDispatch = StepRes.run closedDispatch ∧
    dispatchStep true closedDispatch = StepRes.panicked := by
  refine ⟨by decide, by decide⟩

/-- C7 (amended): once both input channels are closed and drained, every
schedule leaves the dispatch loop either still running — in the same
state, forever — or panicking inside Submit; the loop body has no exit
path, so it never reaches a stopped state. -/
theorem C7_never_stops (picks : List Bool) :
    dispatchSteps picks closedDispatch = StepRes.run closedDispatch ∨
    dispatchSteps picks closedDispatch = StepRes.panicked := by
  induction picks with
  | nil => exact Or.inl rfl
  | cons p ps ih =>
      cases p
      · have h : dispatchStep false closedDispatch = StepRes.run closedDispatch := by decide
        simpa [dispatchSteps, h] using ih
      · have h : dispatchStep true closedDispatch = StepRes.panicked := by decide
        simp [dispatchSteps, h]

theorem sendSeq_fills :
    ∀ (us : List String) (c : GoChan), c.closed = false →
      c.buf.length + us.length ≤ c.cap →
      sendSeq c us = some { c with buf := c.buf ++ us } := by
  intro us
  induction us with
  | nil => intro c h1 h2; simp [sendSeq]
  | cons u us ih =>
      intro c h1 h2
      have h2a : c.buf.length + (us.length + 1) ≤ c.cap := by simpa using h2
      have hlt : c.buf.length < c.cap := by omega
      have hs : c.send u = .sent { c with buf := c.buf ++ [u] } := by
        unfold GoChan.send
        rw [if_neg (by simp [h1]), if_pos hlt]
      have hrec : ({ c with buf := c.buf ++ [u] } : GoChan).buf.length + us.length
          ≤ ({ c with buf := c.buf ++ [u] } : GoChan).cap := by
        simp only [List.length_append, List.length_cons, List.length_nil]
        omega
      rw [sendSeq, hs]
      show sendSeq { c with buf := c.buf ++ [u] } us = _
      rw [ih { c with buf := c.buf ++ [u] } h1 hrec]
      simp

/-- C10: the job queue is created with capacity 100 no matter the worker
count; with no consumption, any 100 submissions complete without
blocking and leave the buffer full, and the next submission blocks. -/
theorem C10_queue_capacity (count : Nat) (us : List String) (u : String) :
    (NewWorkerPool count).incomingFeeds.cap = 100 ∧
    (us.length ≤ 100 →
      sendSeq (NewWorkerPool count).incomingFeeds us
        = some { cap := 100, buf := us, closed := false }) ∧
    (us.length = 100 →
      GoChan.send { cap := 100, buf := us, closed := false } u = SendResult.blocked) := by
  refine ⟨rfl, ?_, ?_⟩
  · intro h
    have hfill := sendSeq_fills us (NewWorkerPool count).incomingFeeds rfl
      (by simpa [NewWorkerPool] using h)
    simpa [NewWorkerPool] using hfill
  · intro h
    unfold GoChan.send
    rw [if_neg (by simp), if_neg (by simp [h])]

theorem C10_queue_capacity_witness :
    sendSeq (NewWorkerPool 0).incomingFeeds (List.replicate 100 "x")
      = some { cap := 100, buf := List.replicate 100 "x", closed := false } ∧
    GoChan.send { cap := 100, buf := List.replicate 100 "x", closed := false } "y"
      = SendResult.blocked :=
  ⟨(C10_queue_capacity 0 (List.replicate 100 "x") "y").2.1 (by simp),
   (C10_queue_capacity 0 (List.replicate 100 "x") "y").2.2 (by simp)⟩

